import Mathlib

/-!
Shallow embedding of the event data model and its import / export /
persistence lifecycle from `timeline.py` (an interactive single-user
timeline editor).  Events live in a session-scoped list of dicts with
keys `id`, `title`, `date` (ISO-8601 text), `image` (optional base64
payload).  We model calendar dates by their (year, month, day) triple
(Python `datetime.date` compares componentwise lexicographically and
`isoformat` is injective, so storing the triple instead of the ISO text
is a bijective change of representation), uuid identifiers by naturals,
and decoded image payloads by byte lists.
-/

/-- Calendar date as stored by the program (`date.isoformat()` text,
modelled by the (year, month, day) triple it encodes). -/
structure Date where
  year : Nat
  month : Nat
  day : Nat
deriving DecidableEq, Repr

/-- Python `datetime.date` ordering: lexicographic on (year, month, day).
Used as the sort key `datetime.date.fromisoformat(e["date"])`. -/
def dateLe (a b : Date) : Bool :=
  decide (a.year < b.year ∨ (a.year = b.year ∧
    (a.month < b.month ∨ (a.month = b.month ∧ a.day ≤ b.day))))

/-- Strict version of the `datetime.date` ordering, used by the import
check `parsed_date < datetime.date(2002, 1, 1)`. -/
def dateLt (a b : Date) : Bool :=
  decide (a.year < b.year ∨ (a.year = b.year ∧
    (a.month < b.month ∨ (a.month = b.month ∧ a.day < b.day))))

/-- The hard lower bound `datetime.date(2002, 1, 1)` used by manual entry
widgets and by the Excel import validation. -/
def minAllowedDate : Date := { year := 2002, month := 1, day := 1 }

/-- An event dict of the session store.  `image = none` models both an
absent `image` key and an explicit `None` value (the program only reads
the field through `event.get("image")`, which identifies the two);
`some b` models an inline base64 payload decoding to the bytes `b`.
`image_file` models the externalized-image reference key written by
`create_save_point`; live events normally carry `image_file = none`. -/
structure Event where
  id : Nat
  title : String
  date : Date
  image : Option (List Nat) := none
  image_file : Option String := none
deriving DecidableEq, Repr

/-- Truthiness of `event.get("image")` in Python: the value is `None` or
a base64 string, and the empty string (empty payload) is falsy. -/
def truthyImage : Option (List Nat) → Bool
  | none => false
  | some b => !b.isEmpty

/-- The valid view set `VALID_VIEWS = {"Timeline", "Domino"}`. -/
def validViews : List String := ["Timeline", "Domino"]

/-- Model of `normalize_view_choice`: empty (falsy) input yields
"Timeline", the retired "Orbit" view maps to "Domino", any other value
is kept when valid and replaced by "Timeline" otherwise. -/
def normalize_view_choice (value : String) : String :=
  if value = "" then "Timeline"
  else if value = "Orbit" then "Domino"
  else if value ∈ validViews then value else "Timeline"

/-- Model of the Add Event button handler: `if title_input:` appends a
fresh event dict `{id, title, date.isoformat(), image}` to
`st.session_state["events"]`, otherwise it warns and appends nothing.
The returned flag records whether the event was appended.  Python string
truthiness rejects exactly the empty string (no trimming is applied). -/
def addEvent (events : List Event) (newId : Nat) (title : String)
    (date : Date) (image : Option (List Nat)) : List Event × Bool :=
  if title = "" then (events, false)
  else (events ++ [{ id := newId, title := title, date := date, image := image }], true)

/-- Model of `sorted(st.session_state["events"], key=lambda e:
datetime.date.fromisoformat(e["date"]))` — Python `sorted` is a stable
sort, modelled by the (stable) `List.mergeSort`. -/
def sortedEvents (events : List Event) : List Event :=
  events.mergeSort (fun a b => dateLe a.date b.date)

theorem dateLe_trans (a b c : Date) (h1 : dateLe a b) (h2 : dateLe b c) : dateLe a c := by
  simp only [dateLe, decide_eq_true_eq] at *
  omega

theorem dateLe_total (a b : Date) : dateLe a b || dateLe b a := by
  simp only [dateLe, Bool.or_eq_true, decide_eq_true_eq]
  omega

theorem dateLe_refl (a : Date) : dateLe a a := by
  simp [dateLe]

/-- Python `str.lower()` (character-wise lowercasing), applied to the
character list of the string. -/
def pyLower (s : String) : String := ⟨s.data.map Char.toLower⟩

/-- Python `str.strip()`: drop whitespace from both ends. -/
def pyStrip (s : String) : String :=
  ⟨(((s.data.dropWhile Char.isWhitespace).reverse.dropWhile Char.isWhitespace).reverse)⟩

/-- A raw `eventdate` cell of an imported row, abstracted by the outcome
of the parsing chain (pandas `Timestamp`/`datetime`/`date`/text): `na`
models a cell for which `pd.isna` holds, `bad` a value whose parse
raises, and `val d` a value parsing to the calendar date `d`. -/
inductive DateCell where
  | na : DateCell
  | bad : DateCell
  | val : Date → DateCell
deriving DecidableEq, Repr

/-- An imported spreadsheet row restricted to the two required columns:
`name = none` models an `eventname` cell for which `pd.isna` holds,
`some s` a cell whose `str(...)` rendering is `s`. -/
structure Row where
  name : Option String
  date : DateCell
deriving DecidableEq, Repr

/-- Normalized duplicate key of an event row:
`(str(name).lower().strip(), parsed_date.isoformat())`, with the ISO
text represented by the date itself. -/
def rowKey (name : String) (d : Date) : String × Date :=
  (pyStrip (pyLower name), d)

/-- Seeding of the duplicate-check set from the current store:
`(ev["title"].lower().strip(), ev["date"])` for each session event. -/
def seedExisting (events : List Event) : List (String × Date) :=
  events.map (fun ev => (pyStrip (pyLower ev.title), ev.date))

/-- Mutable state of the Excel import loop: accepted events (in input
order), the skip and duplicate counters, the growing duplicate-key set,
and the supply of fresh uuids (modelled as a counter). -/
structure ImportState where
  newEvents : List Event
  skipped : Nat
  dups : Nat
  keySet : List (String × Date)
  nextId : Nat
deriving DecidableEq, Repr

/-- One iteration of the Excel import loop over a row: skip on missing
cells, parse failure or a date below the 2002-01-01 minimum; then count
a duplicate when the normalized key is already known, and otherwise
record the key and accept `{id: uuid4, title: str(name).strip(),
date: iso, image: None}`. -/
def processRow (st : ImportState) (r : Row) : ImportState :=
  match r.name, r.date with
  | none, _ => { st with skipped := st.skipped + 1 }
  | some _, DateCell.na => { st with skipped := st.skipped + 1 }
  | some _, DateCell.bad => { st with skipped := st.skipped + 1 }
  | some name, DateCell.val d =>
    if dateLt d minAllowedDate then { st with skipped := st.skipped + 1 }
    else if rowKey name d ∈ st.keySet then { st with dups := st.dups + 1 }
    else
      { st with
        keySet := rowKey name d :: st.keySet,
        newEvents := st.newEvents ++
          [{ id := st.nextId, title := pyStrip name, date := d, image := none }],
        nextId := st.nextId + 1 }

/-- The whole import loop `for idx, row in df.iterrows(): ...`, started
from empty accumulators and a key set pre-seeded from the store. -/
def importLoop (rows : List Row) (events : List Event) (nextId : Nat) : ImportState :=
  rows.foldl processRow
    { newEvents := [], skipped := 0, dups := 0, keySet := seedExisting events, nextId := nextId }

/-- Model of `missing_cols = {"eventname", "eventdate"} - set(col.lower()
for col in df.columns)`. -/
def missingCols (cols : List String) : List String :=
  (["eventname", "eventdate"] : List String).filter
    (fun r => decide (r ∉ cols.map pyLower))

/-- Outcome of one Excel import interaction: `ok = false` records the
fail-fast column error (`st.error`, nothing imported), `ok = true` the
row loop followed by `st.session_state["events"].extend(new_events)`
(extending by the empty list when no row was accepted). -/
structure ExcelOutcome where
  ok : Bool
  events : List Event
  skipped : Nat
  dups : Nat
deriving DecidableEq, Repr

/-- Model of the Excel import handler: the all-or-nothing column
precheck, then the row loop and the append of accepted events. -/
def importExcel (cols : List String) (rows : List Row) (events : List Event)
    (nextId : Nat) : ExcelOutcome :=
  if missingCols cols ≠ [] then
    { ok := false, events := events, skipped := 0, dups := 0 }
  else
    let st := importLoop rows events nextId
    { ok := true, events := events ++ st.newEvents, skipped := st.skipped, dups := st.dups }

/-- Classifier used to state properties of the loop: `some k` exactly
when the row passes the missing-cell, parse and minimum-date checks, `k`
being its normalized duplicate key. -/
def rowStatus (r : Row) : Option (String × Date) :=
  match r.name, r.date with
  | some name, DateCell.val d =>
    if dateLt d minAllowedDate then none else some (rowKey name d)
  | _, _ => none

/-- Number of rows that reach the duplicate check. -/
def countValid (rows : List Row) : Nat :=
  (rows.filter (fun r => (rowStatus r).isSome)).length

/-- Decimal digit characters, as produced by Python `str` formatting of
a nonnegative integer. -/
def digitCharOf : Nat → Char
  | 0 => '0' | 1 => '1' | 2 => '2' | 3 => '3' | 4 => '4'
  | 5 => '5' | 6 => '6' | 7 => '7' | 8 => '8' | 9 => '9'
  | _ => '*'

/-- Numeric value of a digit character. -/
def digitVal (c : Char) : Nat := c.toNat - 48

/-- Big-endian decimal rendering of a natural number onto an
accumulator, mirroring the usual digit-peeling loop behind `str(n)` /
f-string formatting of the event index and id. -/
def decChars (n : Nat) (acc : List Char) : List Char :=
  let d := digitCharOf (n % 10)
  if h : n / 10 = 0 then d :: acc
  else decChars (n / 10) (d :: acc)
termination_by n
decreasing_by
  exact Nat.div_lt_self (Nat.pos_of_ne_zero (by rintro rfl; exact h rfl)) (by omega)

/-- Decimal text of a natural number (`str(n)` in Python). -/
def decimalStr (n : Nat) : String := ⟨decChars n []⟩

/-- Model of the externalized image file name
`f"event_{i}_{event['id']}.png"`. -/
def imageFileName (i : Nat) (id : Nat) : String :=
  "event_" ++ decimalStr i ++ "_" ++ decimalStr id ++ ".png"

/-- Association-list lookup, modelling reading the file stored under a
path (or a dict entry under a key). -/
def lookupA {K V : Type} [DecidableEq K] (m : List (K × V)) (k : K) : Option V :=
  (m.find? (fun e => decide (e.1 = k))).map (fun e => e.2)

/-- Association-list update, modelling creating or overwriting the file
stored under a path. -/
def setA {K V : Type} [DecidableEq K] (m : List (K × V)) (k : K) (v : V) : List (K × V) :=
  (k, v) :: m.filter (fun e => decide (e.1 ≠ k))

/-- On-disk form of one save point document
`save_points/<name>.json`: the `save_info` metadata block (its `name`,
`created_at` timestamp — modelled as a tick —, and `event_count`
computed as `len(events)` at entry) and the event list as written by the
second `json.dump`, i.e. after image externalization.  The cosmetic
`settings` block and the auxiliary `image_files` map, which no claim
touches and `load_save_point` ignores for event reconstruction, are not
modelled. -/
structure SaveDoc where
  info_name : String
  created_at : Nat
  event_count : Nat
  events : List Event
deriving Repr

/-- The `save_points/` directory tree: documents keyed by save-point
name, image files keyed by (save-point name, file name), and the set of
existing `<name>_images/` directories. -/
structure FS where
  docs : List (String × SaveDoc)
  images : List ((String × String) × List Nat)
  dirs : List String
deriving Repr

/-- Image externalization pass of `create_save_point`, on the events
from index `i` on: every event with a truthy inline image has the image
key deleted and an `image_file` reference to `event_{i}_{id}.png`
installed in its place (the same dict object as held by the session). -/
def externalizeFrom (i : Nat) : List Event → List Event
  | [] => []
  | ev :: rest =>
    (if truthyImage ev.image then
      { ev with image := none, image_file := some (imageFileName i ev.id) }
    else ev) :: externalizeFrom (i + 1) rest

/-- The image files written by `create_save_point` for the events from
index `i` on: the decoded base64 payload of every truthy inline image,
under `<name>_images/event_{i}_{id}.png`. -/
def imageWritesFrom (name : String) (i : Nat) : List Event → List ((String × String) × List Nat)
  | [] => []
  | ev :: rest =>
    match ev.image with
    | some b =>
      if b.isEmpty then imageWritesFrom name (i + 1) rest
      else ((name, imageFileName i ev.id), b) :: imageWritesFrom name (i + 1) rest
    | none => imageWritesFrom name (i + 1) rest

/-- Model of `create_save_point(save_name)`: write the document with
`save_info` metadata (`event_count = len(events)`), externalize every
truthy image to a sibling file in `<name>_images/` (created with
`exist_ok=True`), and rewrite the document with the mutated event list.
Because `save_data["events"]` aliases `st.session_state["events"]`, the
externalized list is also the new live session list, returned second. -/
def create_save_point (fs : FS) (name : String) (events : List Event)
    (now : Nat) : FS × List Event :=
  let evs2 := externalizeFrom 0 events
  let doc : SaveDoc :=
    { info_name := name, created_at := now, event_count := events.length, events := evs2 }
  ({ docs := setA fs.docs name doc,
     images := (imageWritesFrom name 0 events).foldl (fun m e => setA m e.1 e.2) fs.images,
     dirs := if name ∈ fs.dirs then fs.dirs else name :: fs.dirs },
   evs2)

/-- Reconstruction of one event by `load_save_point`: with an
`image_file` reference and an existing images directory, read the file
back into an inline payload (and drop the reference); if the referenced
file is missing only the reference is dropped; without a reference (or
without the directory) the inline image is reset to `None`. -/
def restoreEvent (fs : FS) (name : String) (ev : Event) : Event :=
  match ev.image_file with
  | some f =>
    if name ∈ fs.dirs then
      match lookupA fs.images (name, f) with
      | some b => { ev with image := some b, image_file := none }
      | none => { ev with image_file := none }
    else { ev with image := none }
  | none => { ev with image := none }

/-- Model of `load_save_point(save_name)`: `none` when
`save_points/<name>.json` does not exist, otherwise the event list of
the document with each event restored; on success the result replaces
`st.session_state["events"]`. -/
def load_save_point (fs : FS) (name : String) : Option (List Event) :=
  match lookupA fs.docs name with
  | none => none
  | some doc => some (doc.events.map (restoreEvent fs name))

/-- One entry of the save-point listing. -/
structure SavePointInfo where
  name : String
  created_at : Nat
  event_count : Nat
  title : String
deriving DecidableEq, Repr

/-- Model of `get_save_points()`: one entry per readable document —
name from the file stem, `created_at` / `event_count` from `save_info`,
`title` from `save_info["name"]` — sorted by creation time descending. -/
def get_save_points (fs : FS) : List SavePointInfo :=
  (fs.docs.map (fun p =>
    { name := p.1, created_at := p.2.created_at,
      event_count := p.2.event_count, title := p.2.info_name })).mergeSort
    (fun a b => decide (b.created_at ≤ a.created_at))

/-- Path of the document of a save point. -/
def docPath (name : String) : String := "save_points/" ++ name ++ ".json"

/-- Path of the images directory of a save point. -/
def imagesDirPath (name : String) : String := "save_points/" ++ name ++ "_images"

/-- Path of one externalized image file of a save point. -/
def imgPath (name fname : String) : String := imagesDirPath name ++ "/" ++ fname

/-- Model of `delete_save_point(save_name)`: unlink the document if it
exists, then unlink every file of the images directory and remove the
directory if it exists, returning the new tree and the `deleted_files`
list (which counts the removed directory as the original does). -/
def delete_save_point (fs : FS) (name : String) : FS × List String :=
  let hasDoc := (lookupA fs.docs name).isSome
  let docDel := if hasDoc then [docPath name] else []
  let docs2 := if hasDoc then fs.docs.filter (fun e => decide (e.1 ≠ name)) else fs.docs
  if name ∈ fs.dirs then
    ({ docs := docs2,
       images := fs.images.filter (fun e => decide (e.1.1 ≠ name)),
       dirs := fs.dirs.filter (fun d => decide (d ≠ name)) },
     docDel ++ (fs.images.filter (fun e => decide (e.1.1 = name))).map
         (fun e => imgPath name e.1.2) ++ [imagesDirPath name])
  else ({ docs := docs2, images := fs.images, dirs := fs.dirs }, docDel)

/-- Model of the edit Save button handler for the event at position
`idx`: overwrite `title`, `date` and `image` of
`st.session_state['events'][idx]` in place; every other field and
every other event is untouched. -/
def editEvent (events : List Event) (idx : Nat) (title : String)
    (date : Date) (image : Option (List Nat)) : List Event :=
  match events[idx]? with
  | some ev => events.set idx { ev with title := title, date := date, image := image }
  | none => events

/-- C9: view-choice normalization is total and idempotent — for every
input string the result lies in {"Timeline", "Domino"}; the deprecated
name "Orbit" maps to "Domino"; a value already in the valid set is
returned unchanged; the empty string and any other value yield
"Timeline"; and applying the function twice equals applying it once. -/
theorem normalize_view_choice_spec (s : String) :
    normalize_view_choice s ∈ validViews ∧
    normalize_view_choice "Orbit" = "Domino" ∧
    (s ∈ validViews → normalize_view_choice s = s) ∧
    normalize_view_choice "" = "Timeline" ∧
    (s ≠ "Orbit" → s ∉ validViews → normalize_view_choice s = "Timeline") ∧
    normalize_view_choice (normalize_view_choice s) = normalize_view_choice s := by
  unfold normalize_view_choice
  by_cases h0 : s = ""
  · subst h0; simp [validViews]
  · by_cases h1 : s = "Orbit"
    · subst h1; simp [validViews]
    · by_cases h2 : s ∈ validViews
      · have hT : s = "Timeline" ∨ s = "Domino" := by simpa [validViews] using h2
        rcases hT with h | h <;> subst h <;> simp [validViews]
      · have hT : s ≠ "Timeline" := fun he => h2 (by simp [validViews, he])
        have hD : s ≠ "Domino" := fun he => h2 (by simp [validViews, he])
        simp [h0, h1, hT, hD, validViews]

/-- C9 witness: the theorem applied at the concrete input "Domino",
discharging the membership hypothesis there. -/
theorem normalize_view_choice_spec_witness :
    ("Domino" : String) ∈ validViews ∧ normalize_view_choice "Domino" = "Domino" :=
  ⟨by decide, (normalize_view_choice_spec "Domino").2.2.1 (by decide)⟩

/-- C1 counterexample: adding an event whose title is the whitespace-only
string "   " succeeds — the handler guard `if title_input:` only tests
Python truthiness, which accepts any non-empty string, so the event is
appended to the store rather than rejected. -/
theorem addEvent_whitespace_counterexample :
    addEvent [] 0 "   " { year := 2020, month := 1, day := 1 } none =
      ([{ id := 0, title := "   ", date := { year := 2020, month := 1, day := 1 },
          image := none, image_file := none }], true) := by
  decide

/-- C1 amended: adding an event with an empty title always fails and
appends nothing to the store, regardless of the date supplied; a title
that is any non-empty string — including a whitespace-only one such as
"   " — is accepted and appended (the handler performs no trimming). -/
theorem addEvent_empty_title_spec (events : List Event) (newId : Nat)
    (date : Date) (image : Option (List Nat)) (title : String) (h : title ≠ "") :
    addEvent events newId "" date image = (events, false) ∧
    addEvent events newId title date image =
      (events ++ [{ id := newId, title := title, date := date, image := image }], true) := by
  constructor
  · simp [addEvent]
  · simp [addEvent, h]

/-- C1 amended, witness: the empty title is rejected and the
whitespace-only title "   " is appended, at a concrete date. -/
theorem addEvent_empty_title_spec_witness :
    addEvent [] 0 "" { year := 2020, month := 1, day := 1 } none = ([], false) ∧
    addEvent [] 0 "   " { year := 2020, month := 1, day := 1 } none =
      ([{ id := 0, title := "   ", date := { year := 2020, month := 1, day := 1 },
          image := none, image_file := none }], true) :=
  addEvent_empty_title_spec [] 0 { year := 2020, month := 1, day := 1 } none "   " (by decide)

/-- C8: a successful edit of the event at a valid position overwrites
exactly the three mutable fields `title`, `date` and `image` of that
event — its `id` (and `image_file`) survive via the record update — and
every other event of the store is unchanged. -/
theorem editEvent_spec (events : List Event) (idx : Nat) (h : idx < events.length)
    (title : String) (date : Date) (image : Option (List Nat)) :
    (editEvent events idx title date image).length = events.length ∧
    (editEvent events idx title date image)[idx]? =
      some { events[idx] with title := title, date := date, image := image } ∧
    (∀ j : Nat, j ≠ idx → (editEvent events idx title date image)[j]? = events[j]?) := by
  unfold editEvent
  rw [List.getElem?_eq_getElem h]
  refine ⟨by simp, by simp [h], ?_⟩
  intro j hj
  rw [List.getElem?_set_ne (fun he => hj he.symm)]

/-- C8 witness: the theorem applied at a concrete two-event store,
editing position 0 and leaving the other event intact. -/
theorem editEvent_spec_witness :
    (0 : Nat) < ([{ id := 7, title := "a", date := { year := 2020, month := 1, day := 1 } },
                  { id := 8, title := "b", date := { year := 2021, month := 2, day := 2 } }] :
        List Event).length ∧
    (editEvent [{ id := 7, title := "a", date := { year := 2020, month := 1, day := 1 } },
                { id := 8, title := "b", date := { year := 2021, month := 2, day := 2 } }]
        0 "c" { year := 2022, month := 3, day := 3 } (some [1]))[1]? =
      some { id := 8, title := "b", date := { year := 2021, month := 2, day := 2 } } :=
  ⟨by decide,
    (editEvent_spec
      [{ id := 7, title := "a", date := { year := 2020, month := 1, day := 1 } },
       { id := 8, title := "b", date := { year := 2021, month := 2, day := 2 } }]
      0 (by decide) "c" { year := 2022, month := 3, day := 3 } (some [1])).2.2 1 (by decide)⟩

/-- C5: the Excel import enforces only the lower date bound — a row
whose parsed date is strictly before 2002-01-01 is skipped and
increments `skipped_count` (accepting nothing), while any row whose
parsed date is on or after the minimum is accepted whenever its name
cell is present and its key is fresh, with no upper bound: the second
part holds for every such date, arbitrarily far in the future. -/
theorem import_date_bound_spec (st : ImportState) (name : String) (d : Date) :
    (dateLt d minAllowedDate = true →
      processRow st { name := some name, date := DateCell.val d } =
        { st with skipped := st.skipped + 1 }) ∧
    (dateLt d minAllowedDate = false → rowKey name d ∉ st.keySet →
      processRow st { name := some name, date := DateCell.val d } =
        { st with
            keySet := rowKey name d :: st.keySet,
            newEvents := st.newEvents ++
              [{ id := st.nextId, title := pyStrip name, date := d, image := none }],
            nextId := st.nextId + 1 }) := by
  constructor
  · intro h
    simp [processRow, h]
  · intro h hk
    simp [processRow, h, hk]

/-- C5 witness: at the state of a fresh import, a row dated 2001-12-31
is skipped and a row dated 2030-06-01 — in the future — is accepted. -/
theorem import_date_bound_spec_witness :
    processRow { newEvents := [], skipped := 0, dups := 0, keySet := [], nextId := 0 }
        { name := some "x", date := DateCell.val { year := 2001, month := 12, day := 31 } } =
      { newEvents := [], skipped := 1, dups := 0, keySet := [], nextId := 0 } ∧
    processRow { newEvents := [], skipped := 0, dups := 0, keySet := [], nextId := 0 }
        { name := some "y", date := DateCell.val { year := 2030, month := 6, day := 1 } } =
      { newEvents := [{ id := 0, title := "y", date := { year := 2030, month := 6, day := 1 },
                        image := none, image_file := none }],
        skipped := 0, dups := 0,
        keySet := [("y", { year := 2030, month := 6, day := 1 })], nextId := 1 } := by
  constructor
  · exact (import_date_bound_spec
      { newEvents := [], skipped := 0, dups := 0, keySet := [], nextId := 0 }
      "x" { year := 2001, month := 12, day := 31 }).1 (by decide)
  · have h := (import_date_bound_spec
      { newEvents := [], skipped := 0, dups := 0, keySet := [], nextId := 0 }
      "y" { year := 2030, month := 6, day := 1 }).2 (by decide) (by decide)
    rw [h]
    decide

/-- C6: the import column precheck is all-or-nothing — column names are
matched case-insensitively against the two required names, and if
either is absent the handler reports an error and accepts zero rows,
leaving the store unchanged; when both are present the row loop runs
and only then are events appended. -/
theorem import_columns_spec (cols : List String) (rows : List Row)
    (events : List Event) (nextId : Nat) :
    (("eventname" ∉ cols.map pyLower ∨ "eventdate" ∉ cols.map pyLower) →
      importExcel cols rows events nextId =
        { ok := false, events := events, skipped := 0, dups := 0 }) ∧
    ("eventname" ∈ cols.map pyLower → "eventdate" ∈ cols.map pyLower →
      importExcel cols rows events nextId =
        { ok := true, events := events ++ (importLoop rows events nextId).newEvents,
          skipped := (importLoop rows events nextId).skipped,
          dups := (importLoop rows events nextId).dups }) := by
  constructor
  · intro h
    have hne : missingCols cols ≠ [] := by
      rcases h with h | h
      · have h2 : ∀ x ∈ cols, ¬pyLower x = "eventname" := by simpa using h
        exact List.ne_nil_of_mem (a := "eventname") (by simp [missingCols]; exact h2)
      · have h2 : ∀ x ∈ cols, ¬pyLower x = "eventdate" := by simpa using h
        exact List.ne_nil_of_mem (a := "eventdate") (by simp [missingCols]; exact h2)
    simp [importExcel, hne]
  · intro h1 h2
    have hnil : missingCols cols = [] := by
      simp only [missingCols, List.filter_eq_nil_iff]
      intro a ha hdec
      simp only [List.mem_cons, List.not_mem_nil, or_false] at ha
      rcases ha with rfl | rfl
      · exact (of_decide_eq_true hdec) h1
      · exact (of_decide_eq_true hdec) h2
    simp [importExcel, hnil]

/-- C6 witness: with the columns `["EventName", "other"]` the required
`eventdate` column is missing and nothing is imported; with
`["EventName", "EVENTDATE"]` both required column names resolve
case-insensitively and the row loop runs. -/
theorem import_columns_spec_witness :
    importExcel ["EventName", "other"] [] [] 0 =
      { ok := false, events := [], skipped := 0, dups := 0 } ∧
    importExcel ["EventName", "EVENTDATE"] [] [] 0 =
      { ok := true, events := [], skipped := 0, dups := 0 } := by
  constructor
  · exact (import_columns_spec ["EventName", "other"] [] [] 0).1 (by decide)
  · have h := (import_columns_spec ["EventName", "EVENTDATE"] [] [] 0).2
      (by decide) (by decide)
    rw [h]
    decide

theorem lookupA_filter_ne {K V : Type} [DecidableEq K] (m : List (K × V)) (k : K) :
    lookupA (m.filter (fun e => decide (e.1 ≠ k))) k = none := by
  unfold lookupA
  rw [List.find?_eq_none.mpr]
  · rfl
  · intro x hx
    have hne := of_decide_eq_true (List.mem_filter.mp hx).2
    simpa using hne

/-- C7: deleting a save point by a name that was never created (no
document, no images directory) is a no-op returning a zero-length
removed-files list; deleting an existing save point removes the
document and every sibling image file (and the directory), reporting
each removed path. -/
theorem delete_save_point_spec (fs : FS) (name : String) :
    (lookupA fs.docs name = none → name ∉ fs.dirs →
      delete_save_point fs name = (fs, [])) ∧
    (∀ doc : SaveDoc, lookupA fs.docs name = some doc → name ∈ fs.dirs →
      lookupA (delete_save_point fs name).1.docs name = none ∧
      (delete_save_point fs name).1.images.filter (fun e => decide (e.1.1 = name)) = [] ∧
      name ∉ (delete_save_point fs name).1.dirs ∧
      (delete_save_point fs name).2 =
        docPath name ::
          ((fs.images.filter (fun e => decide (e.1.1 = name))).map
              (fun e => imgPath name e.1.2) ++ [imagesDirPath name])) := by
  constructor
  · intro h1 h2
    simp [delete_save_point, h1, h2]
  · intro doc hdoc hdir
    have hs : (lookupA fs.docs name).isSome = true := by rw [hdoc]; rfl
    refine ⟨?_, ?_, ?_, ?_⟩
    · simp only [delete_save_point, hs, if_pos hdir, if_pos rfl]
      exact lookupA_filter_ne fs.docs name
    · simp only [delete_save_point, hs, if_pos hdir]
      rw [List.filter_filter, List.filter_eq_nil_iff]
      intro a _
      simp
    · simp only [delete_save_point, hs, if_pos hdir]
      intro hmem
      have := (List.mem_filter.mp hmem).2
      simp at this
    · simp [delete_save_point, hs, if_pos hdir]

/-- C7 witness: the theorem applied to the empty tree (never-created
name "nope") and to a tree holding save point "X" with one image. -/
theorem delete_save_point_spec_witness :
    delete_save_point { docs := [], images := [], dirs := [] } "nope" =
      ({ docs := [], images := [], dirs := [] }, []) ∧
    (delete_save_point
        { docs := [("X", { info_name := "X", created_at := 0, event_count := 1, events := [] })],
          images := [(("X", "event_0_1.png"), [9])], dirs := ["X"] } "X").2 =
      docPath "X" :: [imgPath "X" "event_0_1.png", imagesDirPath "X"] := by
  constructor
  · exact (delete_save_point_spec { docs := [], images := [], dirs := [] } "nope").1
      rfl (by simp)
  · have h := ((delete_save_point_spec
      { docs := [("X", { info_name := "X", created_at := 0, event_count := 1, events := [] })],
        images := [(("X", "event_0_1.png"), [9])], dirs := ["X"] } "X").2
      { info_name := "X", created_at := 0, event_count := 1, events := [] }
      (by simp [lookupA]) (by simp)).2.2.2
    rw [h]
    simp

/-- C4: the chronological listing consumed by rendering and export is a
stable ascending sort — for every store contents (hence after any
sequence of adds, edits and deletes) the sorted sequence is
non-decreasing by date, and for each date the events carrying it appear
exactly in their original insertion order (the filter of the sorted
list at any date equals the filter of the store in store order). -/
theorem sortedEvents_spec (events : List Event) :
    (sortedEvents events).Pairwise (fun a b => dateLe a.date b.date = true) ∧
    (∀ d : Date, (sortedEvents events).filter (fun e => decide (e.date = d)) =
      events.filter (fun e => decide (e.date = d))) := by
  have htrans : ∀ a b c : Event, dateLe a.date b.date → dateLe b.date c.date →
      dateLe a.date c.date := fun a b c h1 h2 => dateLe_trans a.date b.date c.date h1 h2
  have htotal : ∀ a b : Event, dateLe a.date b.date || dateLe b.date a.date :=
    fun a b => dateLe_total a.date b.date
  constructor
  · exact List.sorted_mergeSort htrans htotal events
  · intro d
    have hsub : List.Sublist (events.filter (fun e => decide (e.date = d))) (sortedEvents events) := by
      apply List.sublist_mergeSort htrans htotal
      · apply List.pairwise_of_forall_mem_list
        intro a ha b hb
        have had : a.date = d := of_decide_eq_true (List.mem_filter.mp ha).2
        have hbd : b.date = d := of_decide_eq_true (List.mem_filter.mp hb).2
        rw [had, hbd]
        exact dateLe_refl d
      · exact List.filter_sublist events
    have hsub2 : List.Sublist (events.filter (fun e => decide (e.date = d)))
        ((sortedEvents events).filter (fun e => decide (e.date = d))) := by
      have := hsub.filter (fun e => decide (e.date = d))
      rwa [List.filter_filter, List.filter_congr, List.filter_congr] at this
      · intro a _; rfl
      · intro a _; simp [Bool.and_self]
    have hperm : List.Perm ((sortedEvents events).filter (fun e => decide (e.date = d)))
        (events.filter (fun e => decide (e.date = d))) :=
      (List.mergeSort_perm events (fun a b => dateLe a.date b.date)).filter
        (fun e => decide (e.date = d))
    exact (hsub2.eq_of_length hperm.length_eq.symm).symm

theorem processRow_of_status_none (st : ImportState) (r : Row) (h : rowStatus r = none) :
    processRow st r = { st with skipped := st.skipped + 1 } := by
  rcases r with ⟨name, dcell⟩
  rcases name with _ | name <;> rcases dcell with _ | _ | d <;>
    simp_all [rowStatus, processRow]

theorem processRow_of_status_some_mem (st : ImportState) (r : Row) (k : String × Date)
    (h : rowStatus r = some k) (hm : k ∈ st.keySet) :
    processRow st r = { st with dups := st.dups + 1 } := by
  rcases r with ⟨name, dcell⟩
  rcases name with _ | name <;> rcases dcell with _ | _ | d <;> simp_all [rowStatus]
  rcases h with ⟨hlt, hk⟩
  simp [processRow, hlt, hk ▸ hm]

theorem processRow_of_status_some_not_mem (st : ImportState) (r : Row) (k : String × Date)
    (h : rowStatus r = some k) (hm : k ∉ st.keySet) :
    ∃ name d, r = { name := some name, date := DateCell.val d } ∧ k = rowKey name d ∧
      processRow st r =
        { st with
            keySet := k :: st.keySet,
            newEvents := st.newEvents ++
              [{ id := st.nextId, title := pyStrip name, date := d, image := none }],
            nextId := st.nextId + 1 } := by
  rcases r with ⟨name, dcell⟩
  rcases name with _ | name <;> rcases dcell with _ | _ | d <;>
    simp only [rowStatus, reduceCtorEq] at h
  by_cases hlt : dateLt d minAllowedDate = true
  · rw [if_pos hlt] at h
    exact absurd h (by simp)
  · rw [if_neg hlt] at h
    have hk := Option.some.inj h
    refine ⟨name, d, rfl, hk.symm, ?_⟩
    rw [← hk] at hm
    simp only [processRow]
    rw [if_neg hlt, if_neg hm, hk]

theorem countValid_cons (r : Row) (rest : List Row) :
    countValid (r :: rest) = (if (rowStatus r).isSome then 1 else 0) + countValid rest := by
  by_cases h : (rowStatus r).isSome
  · simp [countValid, List.filter_cons, h]
    omega
  · simp [countValid, List.filter_cons, h]

theorem importLoop_invariant (rows : List Row) (st : ImportState) :
    ∃ ks : List (String × Date),
      (rows.foldl processRow st).keySet = ks ++ st.keySet ∧
      ks.Nodup ∧
      (∀ k : String × Date, k ∈ ks ↔ (k ∉ st.keySet ∧ ∃ r ∈ rows, rowStatus r = some k)) ∧
      (rows.foldl processRow st).newEvents.length = st.newEvents.length + ks.length ∧
      (rows.foldl processRow st).dups + ks.length = st.dups + countValid rows := by
  induction rows generalizing st with
  | nil => exact ⟨[], by simp [countValid]⟩
  | cons r rest ih =>
    obtain ⟨ks1, h1, h2, h3, h4, h5⟩ := ih (processRow st r)
    rcases hrs : rowStatus r with _ | k0
    · have hpr := processRow_of_status_none st r hrs
      refine ⟨ks1, ?_, h2, ?_, ?_, ?_⟩
      · simpa [hpr] using h1
      · intro k
        rw [h3 k, hpr]
        simp only [List.mem_cons]
        constructor
        · rintro ⟨hk, r2, hr2, hs2⟩
          exact ⟨hk, r2, Or.inr hr2, hs2⟩
        · rintro ⟨hk, r2, hr2 | hr2, hs2⟩
          · rw [hr2] at hs2
            rw [hrs] at hs2
            exact absurd hs2 (by simp)
          · exact ⟨hk, r2, hr2, hs2⟩
      · simpa [hpr] using h4
      · rw [countValid_cons, hrs]
        simp only [List.foldl_cons]
        rw [h5, hpr]
        simp
    · by_cases hm : k0 ∈ st.keySet
      · have hpr := processRow_of_status_some_mem st r k0 hrs hm
        refine ⟨ks1, ?_, h2, ?_, ?_, ?_⟩
        · simpa [hpr] using h1
        · intro k
          rw [h3 k, hpr]
          simp only [List.mem_cons]
          constructor
          · rintro ⟨hk, r2, hr2, hs2⟩
            exact ⟨hk, r2, Or.inr hr2, hs2⟩
          · rintro ⟨hk, r2, hr2 | hr2, hs2⟩
            · rw [hr2, hrs] at hs2
              have hkk : k0 = k := Option.some.inj hs2
              exact absurd (hkk ▸ hm) hk
            · exact ⟨hk, r2, hr2, hs2⟩
        · simpa [hpr] using h4
        · rw [countValid_cons, hrs]
          simp only [List.foldl_cons]
          rw [h5, hpr]
          simp
          omega
      · obtain ⟨name, d, hr, hk0, hpr⟩ := processRow_of_status_some_not_mem st r k0 hrs hm
        have hnotin : k0 ∉ ks1 := by
          intro hin
          have := ((h3 k0).mp hin).1
          rw [hpr] at this
          exact this (List.mem_cons_self k0 st.keySet)
        refine ⟨ks1 ++ [k0], ?_, ?_, ?_, ?_, ?_⟩
        · rw [List.foldl_cons, h1, hpr]
          simp
        · rw [List.nodup_append]
          exact ⟨h2, List.nodup_singleton k0, by simpa using hnotin⟩
        · intro k
          simp only [List.mem_append, List.mem_singleton, h3 k, hpr]
          simp only [List.mem_cons]
          constructor
          · rintro (⟨hk, r2, hr2, hs2⟩ | hk)
            · push_neg at hk
              exact ⟨hk.2, r2, Or.inr hr2, hs2⟩
            · subst hk
              exact ⟨hm, r, Or.inl rfl, hrs⟩
          · rintro ⟨hk, r2, hr2 | hr2, hs2⟩
            · rw [hr2, hrs] at hs2
              exact Or.inr (Option.some.inj hs2).symm
            · by_cases hkk : k = k0
              · exact Or.inr hkk
              · exact Or.inl ⟨by simp [hk, hkk], r2, hr2, hs2⟩
        · rw [List.foldl_cons, h4, hpr]
          simp
          omega
        · rw [List.foldl_cons]
          rw [hpr] at h5 ⊢
          rw [countValid_cons, hrs]
          simp only [List.length_append, List.length_cons, List.length_nil] at h5 ⊢
          simp at h5 ⊢
          omega

/-- C3: import duplicate suppression — with the key set pre-seeded from
the current store, the keys accepted by an import are exactly the fresh
normalized keys occurring among its valid rows, each accepted at most
once (`ks.Nodup`), one store event is appended per accepted key, a key
not in the seed is accepted exactly once as soon as some valid row
carries it, and every further valid row (in particular the second of
two rows sharing one key) increments `duplicate_count` instead of
adding to the store. -/
theorem import_duplicate_spec (rows : List Row) (events : List Event) (nextId : Nat)
    (k : String × Date) (hk : k ∉ seedExisting events) :
    ∃ ks : List (String × Date),
      (importLoop rows events nextId).keySet = ks ++ seedExisting events ∧
      ks.Nodup ∧
      (∀ k2 : String × Date, k2 ∈ ks ↔
        (k2 ∉ seedExisting events ∧ ∃ r ∈ rows, rowStatus r = some k2)) ∧
      (importLoop rows events nextId).newEvents.length = ks.length ∧
      (k ∈ ks ↔ ∃ r ∈ rows, rowStatus r = some k) ∧
      (importLoop rows events nextId).dups + ks.length = countValid rows := by
  obtain ⟨ks, h1, h2, h3, h4, h5⟩ := importLoop_invariant rows
    { newEvents := [], skipped := 0, dups := 0, keySet := seedExisting events, nextId := nextId }
  refine ⟨ks, h1, h2, by simpa using h3, by simpa using h4, ?_, by simpa using h5⟩
  constructor
  · intro hm
    exact ((h3 k).mp hm).2
  · intro hex
    exact (h3 k).mpr ⟨hk, hex⟩

/-- C3 witness: an import of two rows sharing the normalized key
("a", 2020-01-01) into an empty store — the theorem applied there, with
the freshness hypothesis discharged concretely. -/
theorem import_duplicate_spec_witness :
    (("a", ({ year := 2020, month := 1, day := 1 } : Date)) ∉ seedExisting []) ∧
    ∃ ks : List (String × Date),
      ks.Nodup ∧
      (importLoop
          [{ name := some "  A ", date := DateCell.val { year := 2020, month := 1, day := 1 } },
           { name := some "a", date := DateCell.val { year := 2020, month := 1, day := 1 } }]
          [] 0).newEvents.length = ks.length ∧
      (("a", ({ year := 2020, month := 1, day := 1 } : Date)) ∈ ks ↔ ∃ r ∈
          [{ name := some "  A ", date := DateCell.val { year := 2020, month := 1, day := 1 } },
           { name := some "a", date := DateCell.val { year := 2020, month := 1, day := 1 } }],
          rowStatus r = some ("a", { year := 2020, month := 1, day := 1 })) ∧
      (importLoop
          [{ name := some "  A ", date := DateCell.val { year := 2020, month := 1, day := 1 } },
           { name := some "a", date := DateCell.val { year := 2020, month := 1, day := 1 } }]
          [] 0).dups + ks.length =
        countValid
          [{ name := some "  A ", date := DateCell.val { year := 2020, month := 1, day := 1 } },
           { name := some "a", date := DateCell.val { year := 2020, month := 1, day := 1 } }] := by
  refine ⟨by simp [seedExisting], ?_⟩
  obtain ⟨ks, h1, h2, h3, h4, h5, h6⟩ :=
    import_duplicate_spec
      [{ name := some "  A ", date := DateCell.val { year := 2020, month := 1, day := 1 } },
       { name := some "a", date := DateCell.val { year := 2020, month := 1, day := 1 } }]
      [] 0 ("a", { year := 2020, month := 1, day := 1 }) (by simp [seedExisting])
  exact ⟨ks, h2, h4, h5, h6⟩

theorem decChars_acc (n : Nat) : ∀ acc : List Char, decChars n acc = decChars n [] ++ acc := by
  induction n using Nat.strong_induction_on with
  | _ n ih =>
    intro acc
    by_cases h : n / 10 = 0
    · rw [decChars, dif_pos h, decChars, dif_pos h]
      simp
    · rw [decChars, dif_neg h]
      conv_rhs => rw [decChars, dif_neg h]
      have hlt : n / 10 < n :=
        Nat.div_lt_self (Nat.pos_of_ne_zero (by rintro rfl; exact h rfl)) (by omega)
      rw [ih (n / 10) hlt (digitCharOf (n % 10) :: acc), ih (n / 10) hlt [digitCharOf (n % 10)]]
      simp

theorem digitCharOf_isDigit : ∀ m : Nat, m < 10 → (digitCharOf m).isDigit = true := by decide

theorem digitVal_digitCharOf : ∀ m : Nat, m < 10 → digitVal (digitCharOf m) = m := by decide

theorem decChars_isDigit (n : Nat) : ∀ c ∈ decChars n [], c.isDigit = true := by
  induction n using Nat.strong_induction_on with
  | _ n ih =>
    intro c hc
    rw [decChars] at hc
    by_cases h : n / 10 = 0
    · rw [dif_pos h] at hc
      simp only [List.mem_singleton] at hc
      subst hc
      exact digitCharOf_isDigit (n % 10) (Nat.mod_lt n (by omega))
    · rw [dif_neg h, decChars_acc] at hc
      have hlt : n / 10 < n :=
        Nat.div_lt_self (Nat.pos_of_ne_zero (by rintro rfl; exact h rfl)) (by omega)
      rcases List.mem_append.mp hc with hc | hc
      · exact ih (n / 10) hlt c hc
      · simp only [List.mem_singleton] at hc
        subst hc
        exact digitCharOf_isDigit (n % 10) (Nat.mod_lt n (by omega))

theorem foldl_val_decChars (n : Nat) : ∀ a : Nat,
    (decChars n []).foldl (fun x c => 10 * x + digitVal c) a =
      a * 10 ^ (decChars n []).length + n := by
  induction n using Nat.strong_induction_on with
  | _ n ih =>
    intro a
    rw [decChars]
    by_cases h : n / 10 = 0
    · rw [dif_pos h]
      have hn : n < 10 := by omega
      simp only [List.foldl_cons, List.foldl_nil, List.length_singleton, pow_one]
      rw [Nat.mod_eq_of_lt hn, digitVal_digitCharOf n hn]
      omega
    · rw [dif_neg h, decChars_acc]
      have hlt : n / 10 < n :=
        Nat.div_lt_self (Nat.pos_of_ne_zero (by rintro rfl; exact h rfl)) (by omega)
      rw [List.foldl_append, List.length_append, ih (n / 10) hlt a]
      simp only [List.foldl_cons, List.foldl_nil, List.length_singleton]
      rw [digitVal_digitCharOf (n % 10) (Nat.mod_lt n (by omega))]
      rw [pow_succ, ← mul_assoc]
      generalize a * 10 ^ (decChars (n / 10) []).length = x
      omega

theorem decChars_inj (m n : Nat) (h : decChars m [] = decChars n []) : m = n := by
  have hm := foldl_val_decChars m 0
  have hn := foldl_val_decChars n 0
  rw [h] at hm
  rw [hm] at hn
  omega

theorem append_sep_inj (sep : Char) (as : List Char) : ∀ cs bs ds : List Char,
    (∀ a ∈ as, a ≠ sep) → (∀ c ∈ cs, c ≠ sep) →
    as ++ sep :: bs = cs ++ sep :: ds → as = cs ∧ bs = ds := by
  induction as with
  | nil =>
    intro cs bs ds _ hcs h
    cases cs with
    | nil => simpa using h
    | cons c cs2 =>
      simp only [List.nil_append, List.cons_append, List.cons.injEq] at h
      exact absurd h.1.symm (hcs c (List.mem_cons_self c cs2))
  | cons a as2 ih =>
    intro cs bs ds has hcs h
    cases cs with
    | nil =>
      simp only [List.cons_append, List.nil_append, List.cons.injEq] at h
      exact absurd h.1 (has a (List.mem_cons_self a as2))
    | cons c cs2 =>
      simp only [List.cons_append, List.cons.injEq] at h
      obtain ⟨rfl, h2⟩ := h
      obtain ⟨h3, h4⟩ := ih cs2 bs ds
        (fun x hx => has x (List.mem_cons_of_mem a hx))
        (fun x hx => hcs x (List.mem_cons_of_mem a hx)) h2
      exact ⟨by rw [h3], h4⟩

theorem imageFileName_ne (i j a b : Nat) (hij : i ≠ j) :
    imageFileName i a ≠ imageFileName j b := by
  intro h
  have hd := congrArg String.data h
  simp only [imageFileName, decimalStr, String.data_append, List.append_assoc] at hd
  have hev := List.append_cancel_left hd
  simp only [List.singleton_append] at hev
  have hdig : ∀ x : Nat, ∀ c ∈ decChars x [], c ≠ '_' := by
    intro x c hc heq
    have := decChars_isDigit x c hc
    rw [heq] at this
    exact absurd this (by decide)
  exact hij (decChars_inj i j
    (append_sep_inj '_' (decChars i []) (decChars j []) _ _ (hdig i) (hdig j) hev).1)

theorem lookupA_setA_self {K V : Type} [DecidableEq K] (m : List (K × V)) (k : K) (v : V) :
    lookupA (setA m k v) k = some v := by
  simp [lookupA, setA]

theorem lookupA_filter_other {K V : Type} [DecidableEq K] (m : List (K × V)) (k k2 : K)
    (h : k ≠ k2) : lookupA (m.filter (fun e => decide (e.1 ≠ k2))) k = lookupA m k := by
  induction m with
  | nil => rfl
  | cons e rest ih =>
    by_cases he : e.1 = k2
    · rw [List.filter_cons_of_neg (by simp [he])]
      rw [ih]
      unfold lookupA
      rw [List.find?_cons_of_neg _ (by simp [he, Ne.symm h])]
    · rw [List.filter_cons_of_pos (by simp [he])]
      by_cases hek : e.1 = k
      · unfold lookupA
        rw [List.find?_cons_of_pos _ (by simp [hek]), List.find?_cons_of_pos _ (by simp [hek])]
      · unfold lookupA
        rw [List.find?_cons_of_neg _ (by simp [hek]), List.find?_cons_of_neg _ (by simp [hek])]
        exact ih

theorem lookupA_setA_ne {K V : Type} [DecidableEq K] (m : List (K × V)) (k k2 : K) (v : V)
    (h : k ≠ k2) : lookupA (setA m k2 v) k = lookupA m k := by
  unfold setA
  unfold lookupA
  rw [List.find?_cons_of_neg _ (by simp [Ne.symm h])]
  exact lookupA_filter_other m k k2 h

theorem lookupA_foldl_setA_not_mem {K V : Type} [DecidableEq K] (ws : List (K × V)) :
    ∀ (m : List (K × V)) (k : K), (∀ e ∈ ws, e.1 ≠ k) →
    lookupA (ws.foldl (fun m2 e => setA m2 e.1 e.2) m) k = lookupA m k := by
  induction ws with
  | nil => intro m k _; rfl
  | cons w rest ih =>
    intro m k h
    rw [List.foldl_cons, ih _ k (fun e he => h e (List.mem_cons_of_mem w he))]
    exact lookupA_setA_ne m k w.1 w.2 (fun heq => h w (List.mem_cons_self w rest) heq.symm)

theorem imageWritesFrom_key_shape (name : String) (evs : List Event) : ∀ i : Nat,
    ∀ e ∈ imageWritesFrom name i evs,
      ∃ j id2, i ≤ j ∧ e.1 = (name, imageFileName j id2) := by
  induction evs with
  | nil =>
    intro i e he
    simp [imageWritesFrom] at he
  | cons ev rest ih =>
    intro i e he
    rw [imageWritesFrom] at he
    rcases him : ev.image with _ | b
    · rw [him] at he
      simp only [] at he
      obtain ⟨j, id2, hij, hkey⟩ := ih (i + 1) e he
      exact ⟨j, id2, by omega, hkey⟩
    · rw [him] at he
      simp only [] at he
      by_cases hb : b.isEmpty
      · rw [if_pos hb] at he
        obtain ⟨j, id2, hij, hkey⟩ := ih (i + 1) e he
        exact ⟨j, id2, by omega, hkey⟩
      · rw [if_neg hb] at he
        rcases List.mem_cons.mp he with he | he
        · exact ⟨i, ev.id, Nat.le_refl i, by rw [he]⟩
        · obtain ⟨j, id2, hij, hkey⟩ := ih (i + 1) e he
          exact ⟨j, id2, by omega, hkey⟩

theorem lookupA_writes (name : String) (evs : List Event) :
    ∀ (i : Nat) (m : List ((String × String) × List Nat)) (jdx : Nat) (ev : Event) (b : List Nat),
    evs[jdx]? = some ev → ev.image = some b → b.isEmpty = false →
    lookupA ((imageWritesFrom name i evs).foldl (fun m2 e => setA m2 e.1 e.2) m)
      (name, imageFileName (i + jdx) ev.id) = some b := by
  induction evs with
  | nil =>
    intro i m jdx ev b hj
    simp at hj
  | cons e0 rest ih =>
    intro i m jdx ev b hj him hne
    cases jdx with
    | zero =>
      rw [List.getElem?_cons_zero, Option.some.injEq] at hj
      subst hj
      rw [imageWritesFrom, him]
      simp only []
      rw [if_neg (by simp [hne]), List.foldl_cons]
      rw [lookupA_foldl_setA_not_mem _ _ _ ?_]
      · rw [Nat.add_zero]
        exact lookupA_setA_self m _ b
      · intro e he heq
        obtain ⟨j, id2, hij, hkey⟩ := imageWritesFrom_key_shape name rest (i + 1) e he
        rw [hkey, Nat.add_zero, Prod.mk.injEq] at heq
        exact imageFileName_ne j i id2 e0.id (by omega) heq.2
    | succ j2 =>
      rw [List.getElem?_cons_succ] at hj
      have harith : i + (j2 + 1) = (i + 1) + j2 := by omega
      rw [harith, imageWritesFrom]
      rcases him0 : e0.image with _ | b0
      · simp only []
        exact ih (i + 1) m j2 ev b hj him hne
      · simp only []
        by_cases hb0 : b0.isEmpty
        · rw [if_pos hb0]
          exact ih (i + 1) m j2 ev b hj him hne
        · rw [if_neg hb0, List.foldl_cons]
          exact ih (i + 1) _ j2 ev b hj him hne

theorem externalizeFrom_getElem? (events : List Event) : ∀ k i : Nat,
    (externalizeFrom k events)[i]? = (events[i]?).map (fun ev =>
      if truthyImage ev.image then
        { ev with image := none, image_file := some (imageFileName (k + i) ev.id) }
      else ev) := by
  induction events with
  | nil =>
    intro k i
    simp [externalizeFrom]
  | cons ev rest ih =>
    intro k i
    cases i with
    | zero => simp [externalizeFrom]
    | succ i2 =>
      rw [externalizeFrom, List.getElem?_cons_succ, List.getElem?_cons_succ, ih (k + 1) i2]
      have harith : (k + 1) + i2 = k + (i2 + 1) := by omega
      rw [harith]

/-- C10: creating a save point mutates the live store — because
`save_data["events"]` aliases the session event list rather than copying
it, a successful `create_save_point` deletes the inline image entry
from, and installs an `image_file` reference into, every image-bearing
event dict still held by the session, so whenever at least one event
carries a (truthy) image the in-memory events after the call differ
from the events before it. -/
theorem create_save_point_mutates_spec (fs : FS) (name : String)
    (events : List Event) (now : Nat) :
    (∀ (i : Nat) (ev : Event), events[i]? = some ev → truthyImage ev.image = true →
      ((create_save_point fs name events now).2)[i]? =
        some { ev with image := none, image_file := some (imageFileName i ev.id) }) ∧
    ((∃ ev ∈ events, truthyImage ev.image = true) →
      (create_save_point fs name events now).2 ≠ events) := by
  have hpart1 : ∀ (i : Nat) (ev : Event), events[i]? = some ev →
      truthyImage ev.image = true →
      ((create_save_point fs name events now).2)[i]? =
        some { ev with image := none, image_file := some (imageFileName i ev.id) } := by
    intro i ev hi htr
    show (externalizeFrom 0 events)[i]? = _
    rw [externalizeFrom_getElem? events 0 i, hi]
    simp [htr]
  refine ⟨hpart1, ?_⟩
  rintro ⟨ev, hmem, htr⟩ heq
  obtain ⟨i, hi⟩ := List.getElem?_of_mem hmem
  have h1 := hpart1 i ev hi htr
  rw [heq, hi] at h1
  have h3 := Option.some.inj h1
  have h4 := congrArg Event.image h3
  simp only [] at h4
  rw [h4] at htr
  exact absurd htr (by simp [truthyImage])

/-- C10 witness: the theorem applied to a one-event store whose event
carries the image bytes [9]; the session list after the call differs
from the one before. -/
theorem create_save_point_mutates_spec_witness :
    (create_save_point { docs := [], images := [], dirs := [] } "X"
        [{ id := 1, title := "a", date := { year := 2020, month := 1, day := 1 },
           image := some [9], image_file := none }] 5).2[0]? =
      some { id := 1, title := "a", date := { year := 2020, month := 1, day := 1 },
             image := none, image_file := some (imageFileName 0 1) } ∧
    (create_save_point { docs := [], images := [], dirs := [] } "X"
        [{ id := 1, title := "a", date := { year := 2020, month := 1, day := 1 },
           image := some [9], image_file := none }] 5).2 ≠
      [{ id := 1, title := "a", date := { year := 2020, month := 1, day := 1 },
         image := some [9], image_file := none }] := by
  constructor
  · exact (create_save_point_mutates_spec { docs := [], images := [], dirs := [] } "X"
      [{ id := 1, title := "a", date := { year := 2020, month := 1, day := 1 },
         image := some [9], image_file := none }] 5).1 0
      { id := 1, title := "a", date := { year := 2020, month := 1, day := 1 },
        image := some [9], image_file := none } (by simp) (by simp [truthyImage])
  · exact (create_save_point_mutates_spec { docs := [], images := [], dirs := [] } "X"
      [{ id := 1, title := "a", date := { year := 2020, month := 1, day := 1 },
         image := some [9], image_file := none }] 5).2
      ⟨{ id := 1, title := "a", date := { year := 2020, month := 1, day := 1 },
         image := some [9], image_file := none }, by simp, by simp [truthyImage]⟩

/-- C2: save-point round trip — starting from a store whose events are
live session dicts (no stray `image_file` keys, images either absent or
non-empty payloads), after `create_save_point` the in-memory list can be
discarded: `load_save_point` of the same name returns an event list
equal to the store at creation time, titles, dates and image bytes
bit-exact; and the save-point listing taken after the create contains an
entry for that name whose `event_count` equals the number of events at
creation time. -/
theorem save_point_round_trip_spec (fs : FS) (events : List Event) (name : String)
    (now : Nat) (h1 : ∀ ev ∈ events, ev.image_file = none)
    (h2 : ∀ ev ∈ events, ev.image ≠ some []) :
    load_save_point (create_save_point fs name events now).1 name = some events ∧
    ∃ sp ∈ get_save_points (create_save_point fs name events now).1,
      sp.name = name ∧ sp.event_count = events.length := by
  have hdoc : lookupA (create_save_point fs name events now).1.docs name = some
      { info_name := name, created_at := now, event_count := events.length,
        events := externalizeFrom 0 events } := lookupA_setA_self fs.docs name _
  have himages : (create_save_point fs name events now).1.images =
      (imageWritesFrom name 0 events).foldl (fun m e => setA m e.1 e.2) fs.images := rfl
  have hdirs : name ∈ (create_save_point fs name events now).1.dirs := by
    show name ∈ (if name ∈ fs.dirs then fs.dirs else name :: fs.dirs)
    by_cases hd : name ∈ fs.dirs
    · rwa [if_pos hd]
    · rw [if_neg hd]
      exact List.mem_cons_self name fs.dirs
  have hload : (externalizeFrom 0 events).map
      (restoreEvent (create_save_point fs name events now).1 name) = events := by
    apply List.ext_getElem?
    intro n
    rw [List.getElem?_map, externalizeFrom_getElem? events 0 n]
    rcases hn : events[n]? with _ | ev
    · rfl
    · simp only [Option.map_some']
      have hmem := List.getElem?_mem hn
      have hif : ev.image_file = none := h1 ev hmem
      by_cases htr : truthyImage ev.image = true
      · rw [if_pos htr]
        rcases him : ev.image with _ | b
        · rw [him] at htr
          simp [truthyImage] at htr
        · have hbne : b.isEmpty = false := by
            rw [him] at htr
            simpa [truthyImage] using htr
          have hlook := lookupA_writes name events 0 fs.images n ev b hn him hbne
          simp only [restoreEvent]
          rw [if_pos hdirs, himages, hlook]
          simp only []
          rcases ev with ⟨id0, t0, d0, i0, f0⟩
          simp only [] at him hif
          rw [him, hif]
      · rw [if_neg htr]
        have him : ev.image = none := by
          rcases hi : ev.image with _ | b
          · rfl
          · rw [hi] at htr
            simp only [truthyImage, Bool.not_eq_true] at htr
            have hb : b = [] := by
              have hbe : b.isEmpty = true := by simpa using htr
              simpa [List.isEmpty_iff] using hbe
            exact absurd (hb ▸ hi) (h2 ev hmem)
        simp only [restoreEvent, hif]
        rcases ev with ⟨id0, t0, d0, i0, f0⟩
        simp only [] at him hif
        rw [him, hif]
  constructor
  · rw [load_save_point, hdoc]
    simp only []
    rw [hload]
  · refine ⟨⟨name, now, events.length, name⟩, ?_, rfl, rfl⟩
    rw [get_save_points, List.mem_mergeSort]
    exact List.mem_map_of_mem _ (List.mem_cons_self _ _)

/-- C2 witness: the theorem applied to a concrete two-event store (one
event with image bytes [1, 2, 3], one without), created under the name
"X" on the empty tree — loading "X" restores the store exactly and the
listing reports event_count 2 for "X". -/
theorem save_point_round_trip_spec_witness :
    load_save_point (create_save_point { docs := [], images := [], dirs := [] } "X"
        [{ id := 1, title := "a", date := { year := 2020, month := 1, day := 1 },
           image := some [1, 2, 3], image_file := none },
         { id := 2, title := "b", date := { year := 2021, month := 2, day := 2 },
           image := none, image_file := none }] 5).1 "X" =
      some [{ id := 1, title := "a", date := { year := 2020, month := 1, day := 1 },
              image := some [1, 2, 3], image_file := none },
            { id := 2, title := "b", date := { year := 2021, month := 2, day := 2 },
              image := none, image_file := none }] ∧
    ∃ sp ∈ get_save_points (create_save_point { docs := [], images := [], dirs := [] } "X"
        [{ id := 1, title := "a", date := { year := 2020, month := 1, day := 1 },
           image := some [1, 2, 3], image_file := none },
         { id := 2, title := "b", date := { year := 2021, month := 2, day := 2 },
           image := none, image_file := none }] 5).1,
      sp.name = "X" ∧ sp.event_count =
        ([{ id := 1, title := "a", date := { year := 2020, month := 1, day := 1 },
            image := some [1, 2, 3], image_file := none },
          { id := 2, title := "b", date := { year := 2021, month := 2, day := 2 },
            image := none, image_file := none }] : List Event).length :=
  save_point_round_trip_spec { docs := [], images := [], dirs := [] }
    [{ id := 1, title := "a", date := { year := 2020, month := 1, day := 1 },
       image := some [1, 2, 3], image_file := none },
     { id := 2, title := "b", date := { year := 2021, month := 2, day := 2 },
       image := none, image_file := none }] "X" 5
    (by
      intro ev hev
      simp only [List.mem_cons, List.not_mem_nil, or_false] at hev
      rcases hev with rfl | rfl <;> rfl)
    (by
      intro ev hev
      simp only [List.mem_cons, List.not_mem_nil, or_false] at hev
      rcases hev with rfl | rfl <;> simp)
